import Mathlib

/- Verification of the sparse row-block data model of dmlc-core
   (include/dmlc/data.h, src/data/row_block.h, src/data/basic_row_iter.h).

   Modelling conventions:
   - machine integers (size_t, IndexType) are Nat; the representable bound of
     IndexType is an explicit parameter IMAX (for the usual instantiation
     IndexType = unsigned, IMAX = 2^32 - 1);
   - real_t (32-bit float) values are opaque to every container operation
     (they are only copied), so the container is polymorphic in the scalar
     type R; the view-level arithmetic helpers are stated over the exact
     rationals;
   - a CHECK failure in dmlc is fatal (the process halts, no mutated state is
     observable afterwards), so fallible operations return Option and a fired
     CHECK is modelled by none;
   - the binary stream of Save/Load is a flat list of bytes, with the
     length-prefixed vector encoding of dmlc Stream::Write / Stream::Read
     (8-byte little-endian element count, then the elements, 8 bytes per
     size_t element and 4 bytes per real_t / 32-bit index element). -/

namespace Dmlc

/-- Overwrites a region of a buffer in place, modelling memcpy into an already
resized std::vector: writes xs starting at position pos and never changes the
buffer length. -/
def overwriteFrom {α : Type} (l : List α) (pos : Nat) (xs : List α) : List α :=
  (l.take pos ++ xs ++ l.drop (pos + xs.length)).take l.length

/-- Running totals of a list of lengths above a base: cumSums b [l1, l2, ...]
is [b + l1, b + l1 + l2, ...]. Used to describe the offset array of a block. -/
def cumSums (base : Nat) : List Nat → List Nat
  | [] => []
  | l :: ls => (base + l) :: cumSums (base + l) ls

/-- Shallow embedding of dmlc::Row (include/dmlc/data.h lines 66 to 114): one
training instance with a label, a feature count, the index pointer (modelled
as the list of values it points at) and the optional value pointer. -/
structure Row (R : Type) where
  label : R
  length : Nat
  index : List Nat
  value : Option (List R)
deriving DecidableEq

/-- Shallow embedding of dmlc::RowBlock (include/dmlc/data.h lines 125 to
143): a batch of size rows in compressed form. -/
structure RowBlock (R : Type) where
  size : Nat
  offset : List Nat
  label : List R
  index : List Nat
  value : Option (List R)
deriving DecidableEq

/-- The feature ids a row push reads: row.index[i] for i below row.length
(out-of-range reads of the C++ pointer are modelled by the default 0). -/
def Row.ids {R : Type} (r : Row R) : List Nat :=
  (List.range r.length).map (fun i => r.index.getD i 0)

/-- The explicit values a row push reads: row.value[i] for i below
row.length. -/
def Row.vals {R : Type} [Inhabited R] (r : Row R) : List R :=
  (List.range r.length).map (fun i => (r.value.getD []).getD i default)

/-- Row::get_value (include/dmlc/data.h lines 90 to 92): the i-th feature
value, 1.0 when the value pointer is NULL. -/
def Row.get_value (r : Row ℚ) (i : Nat) : ℚ :=
  match r.value with
  | none => 1
  | some v => v.getD i 0

/-- The local variable sum at the end of the body of Row::SDot
(include/dmlc/data.h lines 100 to 113), with the per-element bound CHECK
modelled by Option: none when some feature id is not below the weight length.
Note the C++ function computes this value into the local variable sum but has
no return statement, so the value the caller receives is undefined. -/
def Row.sdotSum (r : Row ℚ) (weight : List ℚ) (n : Nat) : Option ℚ :=
  match r.value with
  | none =>
      (List.range r.length).foldlM
        (fun sum i =>
          if r.index.getD i 0 < n then some (sum + weight.getD (r.index.getD i 0) 0)
          else none) 0
  | some v =>
      (List.range r.length).foldlM
        (fun sum i =>
          if r.index.getD i 0 < n then
            some (sum + weight.getD (r.index.getD i 0) 0 * v.getD i 0)
          else none) 0

/-- RowBlock::operator[] (include/dmlc/data.h lines 173 to 187): the row view
at a row id, none when the CHECK rowid < size fires. The index and value
slices are modelled by dropping offset[rowid] elements; the length field
bounds the view exactly as in the C++ struct. -/
def RowBlock.row {R : Type} [Inhabited R] (b : RowBlock R) (rowid : Nat) :
    Option (Row R) :=
  if rowid < b.size then
    some { label := b.label.getD rowid default
         , length := b.offset.getD (rowid + 1) 0 - b.offset.getD rowid 0
         , index := b.index.drop (b.offset.getD rowid 0)
         , value := b.value.map (fun v => v.drop (b.offset.getD rowid 0)) }
  else none

/-- batch.offset[batch.size], the number of index entries of a block as the
bulk push reads it. -/
def RowBlock.ndata {R : Type} (b : RowBlock R) : Nat := b.offset.getD b.size 0

/-- The feature ids the bulk push reads from a block: batch.index[i] for i
below batch.offset[batch.size]. -/
def RowBlock.ids {R : Type} (b : RowBlock R) : List Nat :=
  (List.range b.ndata).map (fun i => b.index.getD i 0)

/-- The documented layout invariant of a RowBlock view (spec data model):
offset has size + 1 entries, starts at 0 and is non-decreasing; label has
size entries; index (and value when present) has offset[size] entries. -/
def BlockWF {R : Type} (b : RowBlock R) : Prop :=
  b.offset.length = b.size + 1 ∧
  b.offset.head? = some 0 ∧
  List.Chain' (fun x y => x ≤ y) b.offset ∧
  b.label.length = b.size ∧
  b.index.length = b.ndata ∧
  (∀ v, b.value = some v → v.length = b.ndata)

/-- Shallow embedding of dmlc::data::RowBlockContainer (src/data/row_block.h
lines 23 to 112). -/
structure RowBlockContainer (R : Type) where
  offset : List Nat
  label : List R
  index : List Nat
  value : List R
  max_index : Nat
deriving DecidableEq

namespace RowBlockContainer

/-- The state RowBlockContainer::Clear (row_block.h lines 48 to 52) resets
to: offset = [0], all other arrays empty, max_index = 0. -/
def ClearState {R : Type} : RowBlockContainer R :=
  { offset := [0], label := [], index := [], value := [], max_index := 0 }

/-- RowBlockContainer::Size (row_block.h lines 54 to 56). -/
def Size {R : Type} (c : RowBlockContainer R) : Nat := c.offset.length - 1

/-- RowBlockContainer::Push(Row) (row_block.h lines 62 to 78): appends the
label, then each index after the CHECK against the IndexType bound (strictly
below IMAX), then the values when the source row carries them, then one new
offset entry equal to index.size(). A fired CHECK is fatal, hence none. -/
def Push {R : Type} [Inhabited R] (IMAX : Nat) (c : RowBlockContainer R)
    (r : Row R) : Option (RowBlockContainer R) :=
  if (Row.ids r).all (fun x => x < IMAX) then
    some { offset := c.offset ++ [(c.index ++ Row.ids r).length]
         , label := c.label ++ [r.label]
         , index := c.index ++ Row.ids r
         , value := match r.value with
                    | none => c.value
                    | some _ => c.value ++ Row.vals r
         , max_index := (Row.ids r).foldl max c.max_index }
  else none

/-- RowBlockContainer::Push(RowBlock) (row_block.h lines 84 to 111), the bulk
merge path, translated resize-then-overwrite step by step: labels are copied
at position size = label.size(); indices are copied at position
offset.back() after the per-element CHECK; values, when the batch carries
them, are copied at position size (the row count, exactly as the source
memcpy does); the new offset entries are written at position size + 1 as
shift + batch.offset[i + 1] with shift = offset[size]. -/
def PushBlock {R : Type} [Inhabited R] (IMAX : Nat) (c : RowBlockContainer R)
    (b : RowBlock R) : Option (RowBlockContainer R) :=
  let size := c.label.length
  if (RowBlock.ids b).all (fun x => x < IMAX) then
    some { offset :=
             overwriteFrom (c.offset ++ List.replicate b.size 0) (size + 1)
               ((List.range b.size).map
                 (fun i => c.offset.getD size 0 + b.offset.getD (i + 1) 0))
         , label :=
             overwriteFrom (c.label ++ List.replicate b.size default) size
               (b.label.take b.size)
         , index :=
             overwriteFrom (c.index ++ List.replicate b.ndata 0)
               (c.offset.getLastD 0) (RowBlock.ids b)
         , value :=
             match b.value with
             | none => c.value
             | some v =>
                 overwriteFrom (c.value ++ List.replicate b.ndata default) size
                   (v.take b.ndata)
         , max_index := (RowBlock.ids b).foldl max c.max_index }
  else none

/-- RowBlockContainer::GetBlock (row_block.h lines 114 to 132): exports the
view after the three coherence CHECKs; a zero-length value array exports a
NULL value pointer. -/
def GetBlock {R : Type} (c : RowBlockContainer R) : Option (RowBlock R) :=
  if c.label.length + 1 = c.offset.length ∧
     c.offset.getLastD 0 = c.index.length ∧
     (c.offset.getLastD 0 = c.value.length ∨ c.value.length = 0) then
    some { size := c.offset.length - 1
         , offset := c.offset
         , label := c.label
         , index := c.index
         , value := if c.value.length = 0 then none else some c.value }
  else none

/-- BasicRowIter::NumCol (src/data/basic_row_iter.h lines 46 to 48):
max_index cast to size_t, plus one. -/
def NumCol {R : Type} (c : RowBlockContainer R) : Nat := c.max_index + 1

end RowBlockContainer

/-- One w-byte little-endian machine word. -/
def natToBytes : Nat → Nat → List Nat
  | 0, _ => []
  | w + 1, x => x % 256 :: natToBytes w (x / 256)

/-- Decodes a little-endian byte list. -/
def bytesToNat : List Nat → Nat
  | [] => 0
  | b :: rest => b + 256 * bytesToNat rest

/-- dmlc Stream::Write of a vector with w-byte elements: an 8-byte element
count followed by the elements. -/
def writeVec (w : Nat) (xs : List Nat) : List Nat :=
  natToBytes 8 xs.length ++ xs.flatMap (natToBytes w)

/-- Takes k bytes off the stream, failing on a short stream. -/
def readBytes (k : Nat) (s : List Nat) : Option (List Nat × List Nat) :=
  if k ≤ s.length then some (s.take k, s.drop k) else none

/-- Reads n w-byte elements off the stream. -/
def readElems (w : Nat) : Nat → List Nat → Option (List Nat × List Nat)
  | 0, s => some ([], s)
  | n + 1, s => do
      let (b, s1) ← readBytes w s
      let (xs, s2) ← readElems w n s1
      some (bytesToNat b :: xs, s2)

/-- dmlc Stream::Read of a vector with w-byte elements: reads the 8-byte
element count, then that many elements; fails on a truncated stream. -/
def readVec (w : Nat) (s : List Nat) : Option (List Nat × List Nat) := do
  let (nb, s1) ← readBytes 8 s
  readElems w (bytesToNat nb) s1

namespace RowBlockContainer

/-- RowBlockContainer::Save (row_block.h lines 133 to 140) at the usual
instantiation IndexType = unsigned: writes offset (8-byte size_t elements),
then label, then index, then value (4-byte elements each); the scalar lists
hold the raw 32-bit patterns of the stored floats. -/
def Save (c : RowBlockContainer Nat) : List Nat :=
  writeVec 8 c.offset ++ writeVec 4 c.label ++ writeVec 4 c.index ++
    writeVec 4 c.value

/-- RowBlockContainer::Load (row_block.h lines 141 to 148): reads offset,
then label, then the member value, then the member index, in exactly that
source order; any failed read is a fired CHECK, hence none. max_index is not
touched by Load. -/
def Load (c : RowBlockContainer Nat) (s : List Nat) :
    Option (RowBlockContainer Nat) := do
  let (off, s1) ← readVec 8 s
  let (lab, s2) ← readVec 4 s1
  let (val, s3) ← readVec 4 s2
  let (idx, _s4) ← readVec 4 s3
  some { c with offset := off, label := lab, value := val, index := idx }

end RowBlockContainer

/-- One public mutation of a container: Clear, single-row Push, or bulk
Push. -/
inductive ContOp (R : Type) where
  | clear : ContOp R
  | pushRow : Row R → ContOp R
  | pushBlock : RowBlock R → ContOp R
deriving DecidableEq

/-- Runs one public operation: Clear always succeeds and resets; the pushes
are fallible. -/
def applyOp {R : Type} [Inhabited R] (IMAX : Nat) (c : RowBlockContainer R) :
    ContOp R → Option (RowBlockContainer R)
  | ContOp.clear => some RowBlockContainer.ClearState
  | ContOp.pushRow r => RowBlockContainer.Push IMAX c r
  | ContOp.pushBlock b => RowBlockContainer.PushBlock IMAX c b

/-- Runs a sequence of public operations, failing as soon as one fails. -/
def runOps {R : Type} [Inhabited R] (IMAX : Nat) (c : RowBlockContainer R)
    (ops : List (ContOp R)) : Option (RowBlockContainer R) :=
  ops.foldlM (fun s op => applyOp IMAX s op) c

/-- The well-formedness duty on an operation: a bulk-pushed foreign block
must satisfy the documented RowBlock layout invariant. -/
def OpWF {R : Type} : ContOp R → Prop
  | ContOp.clear => True
  | ContOp.pushRow _ => True
  | ContOp.pushBlock b => BlockWF b

/-- The feature ids an operation reads and accepts. -/
def opIds {R : Type} : ContOp R → List Nat
  | ContOp.clear => []
  | ContOp.pushRow r => r.ids
  | ContOp.pushBlock b => b.ids

/-- Whether an operation pushes explicit values (none for Clear). -/
def opVal {R : Type} : ContOp R → Option Bool
  | ContOp.clear => none
  | ContOp.pushRow r => some r.value.isSome
  | ContOp.pushBlock b => some b.value.isSome

/-- Assembling a list of rows into one foreign RowBlock, as claim C2 directs:
offsets are the running totals of the row lengths, labels, indices and values
are concatenated, and the value array is present unless every row omits
it. -/
def assemble {R : Type} [Inhabited R] (rows : List (Row R)) : RowBlock R :=
  { size := rows.length
  , offset := List.scanl (fun a b => a + b) 0 (rows.map Row.length)
  , label := rows.map Row.label
  , index := rows.flatMap Row.ids
  , value := if rows.all (fun r => r.value.isNone) then none
             else some (rows.flatMap Row.vals) }

/-- Shallow embedding of dmlc::data::BasicRowIter (src/data/basic_row_iter.h
lines 23 to 79): the drained block plus the at_head_ flag. -/
structure BasicRowIter (R : Type) where
  at_head : Bool
  row : RowBlock R

/-- BasicRowIter::BeforeFirst (basic_row_iter.h lines 32 to 34). -/
def BasicRowIter.BeforeFirst {R : Type} (it : BasicRowIter R) :
    BasicRowIter R :=
  { it with at_head := true }

/-- BasicRowIter::Next (basic_row_iter.h lines 35 to 42): true exactly when
at_head_, which it clears. -/
def BasicRowIter.Next {R : Type} (it : BasicRowIter R) :
    Bool × BasicRowIter R :=
  if it.at_head then (true, { it with at_head := false }) else (false, it)

/-- The iterator state right after the constructor ran Init: at_head_ is
true and the drained block is stored. -/
def mkBasicRowIter {R : Type} (b : RowBlock R) : BasicRowIter R :=
  { at_head := true, row := b }

/-- The booleans returned by k successive Next calls. -/
def nextResults {R : Type} : BasicRowIter R → Nat → List Bool
  | _, 0 => []
  | it, k + 1 =>
      let p := it.Next
      p.1 :: nextResults p.2 k


/- Helper lemmas about the buffer model. -/

lemma overwriteFrom_length {α : Type} (l : List α) (pos : Nat) (xs : List α) :
    (overwriteFrom l pos xs).length = l.length := by
  simp only [overwriteFrom, List.length_take, List.length_append,
    List.length_drop]
  omega

lemma overwriteFrom_append {α : Type} (a : List α) (d : α) (k pos : Nat)
    (xs : List α) (hpos : pos = a.length) (h : xs.length = k) :
    overwriteFrom (a ++ List.replicate k d) pos xs = a ++ xs := by
  subst h; subst hpos
  simp only [overwriteFrom]
  rw [List.take_left]
  have hlen : (a ++ List.replicate xs.length d).length = a.length + xs.length := by
    simp
  rw [show (a ++ List.replicate xs.length d).drop (a.length + xs.length) = [] from by
        rw [← hlen, List.drop_length]]
  rw [List.append_nil, List.take_of_length_le (by simp [hlen])]

lemma rangeMap_getD {α : Type} (l : List α) (d : α) :
    (List.range l.length).map (fun i => l.getD i d) = l := by
  apply List.ext_getElem
  · simp
  · intro i h1 h2
    simp only [List.getElem_map, List.getElem_range]
    rw [List.getD_eq_getElem l d h2]

lemma row_ids_length {R : Type} (r : Row R) : r.ids.length = r.length := by
  simp [Row.ids]

lemma Row.vals_length {R : Type} [Inhabited R] (r : Row R) :
    r.vals.length = r.length := by
  simp [Row.vals]

lemma block_ids_length {R : Type} (b : RowBlock R) :
    b.ids.length = b.ndata := by
  simp [RowBlock.ids]

lemma cumSums_length (base : Nat) (ls : List Nat) :
    (cumSums base ls).length = ls.length := by
  induction ls generalizing base with
  | nil => rfl
  | cons l ls ih => simp [cumSums, ih]

lemma scanl_add_eq (base : Nat) (ls : List Nat) :
    List.scanl (fun a b => a + b) base ls = base :: cumSums base ls := by
  induction ls generalizing base with
  | nil => rfl
  | cons l ls ih => simp [List.scanl_cons, cumSums, ih]

lemma cons_cumSums_getD_last (base : Nat) (ls : List Nat) :
    (base :: cumSums base ls).getD ls.length 0 = base + ls.sum := by
  induction ls generalizing base with
  | nil => simp
  | cons l ls ih =>
      simp only [cumSums, List.length_cons, List.getD_cons_succ, ih,
        List.sum_cons]
      omega

lemma flatMap_ids_length (rows : List (Row ℚ)) :
    (rows.flatMap Row.ids).length = (rows.map Row.length).sum := by
  induction rows with
  | nil => rfl
  | cons r rows ih => simp [ih, row_ids_length]

lemma flatMap_vals_length (rows : List (Row ℚ)) :
    (rows.flatMap Row.vals).length = (rows.map Row.length).sum := by
  induction rows with
  | nil => rfl
  | cons r rows ih => simp [ih, Row.vals_length]

lemma flatMap_congr {α β : Type} {l : List α} {f g : α → List β}
    (h : ∀ a ∈ l, f a = g a) : l.flatMap f = l.flatMap g := by
  induction l with
  | nil => rfl
  | cons a l ih =>
      simp only [List.flatMap_cons]
      rw [h a (by simp), ih (fun a ha => h a (by simp [ha]))]

lemma flatMap_eq_nil {α β : Type} {l : List α} {f : α → List β}
    (h : ∀ a ∈ l, f a = []) : l.flatMap f = [] := by
  rw [flatMap_congr h]
  simp

/- The closed form of a sequence of single-row pushes. -/

/-- The container obtained by appending a list of rows to c (the closed form
both push paths are proved equal to). -/
def appended {R : Type} [Inhabited R] (c : RowBlockContainer R)
    (rows : List (Row R)) : RowBlockContainer R :=
  { offset := c.offset ++ cumSums c.index.length (rows.map Row.length)
  , label := c.label ++ rows.map Row.label
  , index := c.index ++ rows.flatMap Row.ids
  , value := c.value ++ rows.flatMap (fun r => match r.value with
      | none => []
      | some _ => r.vals)
  , max_index := (rows.flatMap Row.ids).foldl max c.max_index }

lemma appended_nil {R : Type} [Inhabited R] (c : RowBlockContainer R) :
    appended c [] = c := by
  simp [appended, cumSums]

lemma appended_push {R : Type} [Inhabited R] (c : RowBlockContainer R)
    (r : Row R) (rows : List (Row R)) :
    appended { offset := c.offset ++ [(c.index ++ Row.ids r).length]
             , label := c.label ++ [r.label]
             , index := c.index ++ Row.ids r
             , value := match r.value with
                        | none => c.value
                        | some _ => c.value ++ Row.vals r
             , max_index := (Row.ids r).foldl max c.max_index }
        rows
      = appended c (r :: rows) := by
  cases hv : r.value <;>
    simp [appended, cumSums, row_ids_length, hv, List.foldl_append,
      List.append_assoc]

lemma foldlM_push_closed {R : Type} [Inhabited R] (IMAX : Nat)
    (rows : List (Row R)) (c : RowBlockContainer R) :
    List.foldlM (fun s r => RowBlockContainer.Push IMAX s r) c rows =
      if (rows.flatMap Row.ids).all (fun x => x < IMAX) then
        some (appended c rows)
      else none := by
  induction rows generalizing c with
  | nil => simp [appended_nil]
  | cons r rows ih =>
      rw [List.foldlM_cons]
      by_cases h : (Row.ids r).all (fun x => x < IMAX)
      · have hpush : RowBlockContainer.Push IMAX c r = some
            { offset := c.offset ++ [(c.index ++ Row.ids r).length]
            , label := c.label ++ [r.label]
            , index := c.index ++ Row.ids r
            , value := match r.value with
                       | none => c.value
                       | some _ => c.value ++ Row.vals r
            , max_index := (Row.ids r).foldl max c.max_index } := by
          unfold RowBlockContainer.Push
          rw [if_pos h]
        rw [hpush]
        show List.foldlM (fun s r => RowBlockContainer.Push IMAX s r) _ rows = _
        rw [ih, appended_push]
        simp only [List.flatMap_cons, List.all_append, h, Bool.true_and]
      · have hpush : RowBlockContainer.Push IMAX c r = none := by
          unfold RowBlockContainer.Push
          rw [if_neg (by simpa using h)]
        rw [hpush]
        show (none : Option (RowBlockContainer R)) = _
        simp only [List.flatMap_cons, List.all_append, h, Bool.false_and]
        rw [if_neg (by simp)]

lemma overwriteFrom_replicate {α : Type} (d : α) (k : Nat) (xs : List α)
    (h : xs.length = k) :
    overwriteFrom (List.replicate k d) 0 xs = xs := by
  have hh := overwriteFrom_append ([] : List α) d k 0 xs rfl h
  simpa using hh

/- Evaluating the bulk push on a freshly cleared container. -/

lemma assemble_index (rows : List (Row ℚ)) :
    (assemble rows).index = rows.flatMap Row.ids := rfl

lemma assemble_ndata (rows : List (Row ℚ)) :
    (assemble rows).ndata = (rows.flatMap Row.ids).length := by
  show (List.scanl (fun a b => a + b) 0 (rows.map Row.length)).getD
      rows.length 0 = _
  rw [scanl_add_eq]
  rw [show rows.length = (rows.map Row.length).length from by simp]
  rw [cons_cumSums_getD_last, flatMap_ids_length]
  omega

lemma assemble_ids (rows : List (Row ℚ)) :
    (assemble rows).ids = rows.flatMap Row.ids := by
  show (List.range (assemble rows).ndata).map
      (fun i => (assemble rows).index.getD i 0) = _
  rw [assemble_ndata, assemble_index]
  exact rangeMap_getD _ 0

lemma pushBlock_clear (IMAX : Nat) (b : RowBlock ℚ)
    (hlab : b.label.length = b.size)
    (hoff0 : b.offset.head? = some 0)
    (hofflen : b.offset.length = b.size + 1)
    (hval : ∀ v, b.value = some v → b.ndata ≤ v.length) :
    RowBlockContainer.PushBlock IMAX RowBlockContainer.ClearState b =
      if b.ids.all (fun x => x < IMAX) then
        some { offset := b.offset
             , label := b.label
             , index := b.ids
             , value := match b.value with
                        | none => []
                        | some v => v.take b.ndata
             , max_index := b.ids.foldl max 0 }
      else none := by
  obtain ⟨toff, htoff⟩ : ∃ t, b.offset = 0 :: t := by
    cases ho : b.offset with
    | nil => rw [ho] at hoff0; simp at hoff0
    | cons x t =>
        rw [ho] at hoff0
        simp at hoff0
        exact ⟨t, by rw [hoff0]⟩
  have htlen : toff.length = b.size := by
    rw [htoff] at hofflen
    simpa using hofflen
  have hgl : (([0] : List Nat).getLastD 0) = 0 := rfl
  simp only [RowBlockContainer.PushBlock, RowBlockContainer.ClearState,
    List.length_nil, List.nil_append, Nat.zero_add, List.getD_cons_zero, hgl]
  by_cases h : b.ids.all (fun x => x < IMAX)
  · rw [if_pos h, if_pos h]
    have hoffc : overwriteFrom (([0] : List Nat) ++ List.replicate b.size 0) 1
        ((List.range b.size).map (fun i => b.offset.getD (i + 1) 0)) =
        b.offset := by
      have hmap : (List.range b.size).map (fun i => b.offset.getD (i + 1) 0) =
          toff := by
        rw [htoff]
        simp only [List.getD_cons_succ]
        rw [← htlen]
        exact rangeMap_getD toff 0
      rw [hmap]
      rw [overwriteFrom_append ([0] : List Nat) 0 b.size 1 toff rfl htlen]
      rw [htoff]
      rfl
    have hlabc : overwriteFrom (List.replicate b.size (default : ℚ)) 0
        (b.label.take b.size) = b.label := by
      rw [overwriteFrom_replicate _ _ _ (by simp [hlab])]
      rw [← hlab, List.take_length]
    have hidxc : overwriteFrom (List.replicate b.ndata 0) 0 b.ids = b.ids :=
      overwriteFrom_replicate _ _ _ (block_ids_length b)
    cases hbv : b.value with
    | none =>
        simp only [hbv]
        rw [hoffc, hlabc, hidxc]
    | some v =>
        have hvalc : overwriteFrom (List.replicate b.ndata (default : ℚ)) 0
            (v.take b.ndata) = v.take b.ndata :=
          overwriteFrom_replicate _ _ _ (by simp [hval v hbv])
        simp only [hbv]
        rw [hoffc, hlabc, hidxc, hvalc]
  · rw [if_neg h, if_neg h]


lemma pushBlock_assemble (IMAX : Nat) (rows : List (Row ℚ))
    (hom : (∀ r ∈ rows, r.value = none) ∨ (∀ r ∈ rows, r.value ≠ none)) :
    RowBlockContainer.PushBlock IMAX RowBlockContainer.ClearState
        (assemble rows) =
      if (rows.flatMap Row.ids).all (fun x => x < IMAX) then
        some (appended RowBlockContainer.ClearState rows)
      else none := by
  have hlab : (assemble rows).label.length = (assemble rows).size := by
    simp [assemble]
  have hoff0 : (assemble rows).offset.head? = some 0 := by
    simp [assemble, scanl_add_eq]
  have hofflen : (assemble rows).offset.length = (assemble rows).size + 1 := by
    simp [assemble, scanl_add_eq, cumSums_length]
  have hval : ∀ v, (assemble rows).value = some v →
      (assemble rows).ndata ≤ v.length := by
    intro v hv
    by_cases hn : rows.all (fun r => r.value.isNone)
    · rw [show (assemble rows).value = none from by simp [assemble, hn]] at hv
      cases hv
    · rw [show (assemble rows).value = some (rows.flatMap Row.vals) from by
        simp [assemble, hn]] at hv
      obtain rfl := Option.some.inj hv
      rw [assemble_ndata, flatMap_ids_length, flatMap_vals_length]
  rw [pushBlock_clear IMAX (assemble rows) hlab hoff0 hofflen hval,
    assemble_ids]
  by_cases h : (rows.flatMap Row.ids).all (fun x => x < IMAX)
  · rw [if_pos h, if_pos h]
    congr 1
    simp only [appended, RowBlockContainer.mk.injEq]
    refine ⟨?_, ?_, ?_, ?_, ?_⟩
    · simp [assemble, RowBlockContainer.ClearState, scanl_add_eq]
    · simp [assemble, RowBlockContainer.ClearState]
    · simp [RowBlockContainer.ClearState]
    · by_cases hn : rows.all (fun r => r.value.isNone)
      · rw [show (assemble rows).value = none from by simp [assemble, hn]]
        simp only [RowBlockContainer.ClearState, List.nil_append]
        refine (flatMap_eq_nil ?_).symm
        intro r hr
        have hrn : r.value = none := by
          have h2 := List.all_eq_true.mp hn r hr
          simpa using h2
        rw [hrn]
      · have homR : ∀ r ∈ rows, r.value ≠ none := by
          rcases hom with homL | homR
          · exact absurd (List.all_eq_true.mpr fun r hr => by
              simp [homL r hr]) hn
          · exact homR
        rw [show (assemble rows).value = some (rows.flatMap Row.vals) from by
          simp [assemble, hn]]
        have hlen : (rows.flatMap Row.vals).length = (assemble rows).ndata := by
          rw [assemble_ndata, flatMap_ids_length, flatMap_vals_length]
        show (rows.flatMap Row.vals).take ((assemble rows).ndata) = _
        rw [← hlen, List.take_length]
        simp only [RowBlockContainer.ClearState, List.nil_append]
        refine (flatMap_congr ?_).symm
        intro r hr
        cases hv : r.value with
        | none => exact absurd hv (homR r hr)
        | some v => rfl
    · simp [RowBlockContainer.ClearState]
  · rw [if_neg h, if_neg h]

/-- Claim C2: for every sequence of rows, all carrying explicit values or all
without, pushing them one by one via Push(Row) into an empty (cleared)
container yields exactly the same final container state (offset, label,
index, value, max_index) as assembling those same rows into a foreign
RowBlock and pushing it with one bulk Push(RowBlock) call into an empty
container; both sides also fail together when a feature id is out of
bounds. -/
theorem C2_merge_equivalence (IMAX : Nat) (rows : List (Row ℚ))
    (hom : (∀ r ∈ rows, r.value = none) ∨ (∀ r ∈ rows, r.value ≠ none)) :
    List.foldlM (fun s r => RowBlockContainer.Push IMAX s r)
        RowBlockContainer.ClearState rows =
      RowBlockContainer.PushBlock IMAX RowBlockContainer.ClearState
        (assemble rows) := by
  rw [foldlM_push_closed, pushBlock_assemble IMAX rows hom]

/-- Witness for C2 at a concrete input: two rows with explicit values. -/
theorem C2_merge_equivalence_witness :
    List.foldlM (fun s r => RowBlockContainer.Push 10 s r)
        RowBlockContainer.ClearState
        [(⟨1, 2, [1, 3], some [5, 2]⟩ : Row ℚ), ⟨-1, 1, [2], some [1]⟩] =
      RowBlockContainer.PushBlock 10 RowBlockContainer.ClearState
        (assemble [(⟨1, 2, [1, 3], some [5, 2]⟩ : Row ℚ),
                   ⟨-1, 1, [2], some [1]⟩]) :=
  C2_merge_equivalence 10 _ (Or.inr (by decide))


/- Invariant layer: facts preserved by the public container operations. -/

/-- The structural container invariant: label, offset and index lengths
cohere, offset starts at 0 and ends at the index length. -/
def InvL {R : Type} (c : RowBlockContainer R) : Prop :=
  c.label.length + 1 = c.offset.length ∧
  c.offset.head? = some 0 ∧
  c.offset.getLast? = some c.index.length

/-- The value-length invariant, relative to whether the pushes carry
explicit values. -/
def InvV {R : Type} (wv : Bool) (c : RowBlockContainer R) : Prop :=
  c.value.length = (if wv then c.index.length else 0)

lemma clear_InvL {R : Type} : InvL (RowBlockContainer.ClearState : RowBlockContainer R) :=
  ⟨rfl, rfl, rfl⟩

lemma clear_chain {R : Type} :
    List.Chain' (fun x y => x ≤ y)
      (RowBlockContainer.ClearState : RowBlockContainer R).offset :=
  List.chain'_singleton 0

lemma getLast?_getD {l : List Nat} {a : Nat} (h : l.getLast? = some a) :
    l.getD (l.length - 1) 0 = a := by
  induction l with
  | nil => cases h
  | cons x t ih =>
      cases t with
      | nil =>
          simp only [List.getLast?_singleton] at h
          simpa using h
      | cons y t2 =>
          rw [List.getLast?_cons_cons] at h
          have h2 := ih h
          show (x :: y :: t2).getD (t2.length + 2 - 1) 0 = a
          rw [show t2.length + 2 - 1 = t2.length + 1 from rfl]
          rw [List.getD_cons_succ]
          simpa using h2

lemma head?_append_of_head? {α : Type} {l l2 : List α} {a : α}
    (h : l.head? = some a) : (l ++ l2).head? = some a := by
  cases l with
  | nil => cases h
  | cons x t => simpa using h

lemma chain'_getD {l : List Nat}
    (hch : List.Chain' (fun x y => x ≤ y) l) {i : Nat}
    (h : i + 1 < l.length) : l.getD i 0 ≤ l.getD (i + 1) 0 := by
  rw [List.chain'_iff_get] at hch
  have hc := hch i (by omega)
  rw [List.getD_eq_getElem l 0 (by omega), List.getD_eq_getElem l 0 h]
  simpa [List.get_eq_getElem] using hc

lemma Push_eq_some {R : Type} [Inhabited R] {IMAX : Nat}
    {c c' : RowBlockContainer R} {r : Row R}
    (h : RowBlockContainer.Push IMAX c r = some c') :
    c' = { offset := c.offset ++ [(c.index ++ Row.ids r).length]
         , label := c.label ++ [r.label]
         , index := c.index ++ Row.ids r
         , value := match r.value with
                    | none => c.value
                    | some _ => c.value ++ Row.vals r
         , max_index := (Row.ids r).foldl max c.max_index } := by
  unfold RowBlockContainer.Push at h
  by_cases hall : (Row.ids r).all (fun x => x < IMAX)
  · rw [if_pos hall] at h
    exact (Option.some.inj h).symm
  · rw [if_neg hall] at h
    cases h

lemma PushBlock_eq_some {R : Type} [Inhabited R] {IMAX : Nat}
    {c c' : RowBlockContainer R} {b : RowBlock R}
    (h : RowBlockContainer.PushBlock IMAX c b = some c') :
    (RowBlock.ids b).all (fun x => x < IMAX) = true ∧
    c' = { offset := overwriteFrom (c.offset ++ List.replicate b.size 0)
             (c.label.length + 1)
             ((List.range b.size).map
               (fun i => c.offset.getD c.label.length 0 +
                 b.offset.getD (i + 1) 0))
         , label := overwriteFrom (c.label ++ List.replicate b.size default)
             c.label.length (b.label.take b.size)
         , index := overwriteFrom (c.index ++ List.replicate b.ndata 0)
             (c.offset.getLastD 0) (RowBlock.ids b)
         , value := match b.value with
             | none => c.value
             | some v =>
                 overwriteFrom (c.value ++ List.replicate b.ndata default)
                   c.label.length (v.take b.ndata)
         , max_index := (RowBlock.ids b).foldl max c.max_index } := by
  simp only [RowBlockContainer.PushBlock] at h
  by_cases hall : (RowBlock.ids b).all (fun x => x < IMAX)
  · rw [if_pos hall] at h
    exact ⟨hall, (Option.some.inj h).symm⟩
  · rw [if_neg hall] at h
    cases h


lemma range_succ_append (n : Nat) : List.range (n + 1) = List.range n ++ [n] :=
  List.range_succ n

lemma range_succ_cons (n : Nat) :
    List.range (n + 1) = 0 :: (List.range n).map Nat.succ :=
  List.range_succ_eq_map n

lemma Push_InvL {R : Type} [Inhabited R] {IMAX : Nat}
    {c c' : RowBlockContainer R} {r : Row R}
    (hc : InvL c) (h : RowBlockContainer.Push IMAX c r = some c') :
    InvL c' := by
  obtain ⟨h1, h2, h3⟩ := hc
  rw [Push_eq_some h]
  refine ⟨by simp [← h1], head?_append_of_head? h2, ?_⟩
  rw [List.getLast?_concat]

lemma Push_chain {R : Type} [Inhabited R] {IMAX : Nat}
    {c c' : RowBlockContainer R} {r : Row R}
    (hc : InvL c) (hch : List.Chain' (fun x y => x ≤ y) c.offset)
    (h : RowBlockContainer.Push IMAX c r = some c') :
    List.Chain' (fun x y => x ≤ y) c'.offset := by
  obtain ⟨h1, h2, h3⟩ := hc
  rw [Push_eq_some h]
  show List.Chain' (fun x y => x ≤ y)
    (c.offset ++ [(c.index ++ Row.ids r).length])
  apply List.Chain'.append hch (List.chain'_singleton _)
  intro x hx y hy
  rw [h3] at hx
  have hx2 : c.index.length = x := by simpa using hx
  have hy2 : (c.index ++ Row.ids r).length = y := by simpa using hy
  rw [← hx2, ← hy2]
  simp

lemma Push_InvV {R : Type} [Inhabited R] {IMAX : Nat} {wv : Bool}
    {c c' : RowBlockContainer R} {r : Row R}
    (hv : r.value.isSome = wv) (hc : InvV wv c)
    (h : RowBlockContainer.Push IMAX c r = some c') :
    InvV wv c' := by
  rw [Push_eq_some h]
  unfold InvV at hc ⊢
  cases hrv : r.value with
  | none =>
      rw [hrv] at hv
      simp only [Option.isSome_none] at hv
      simp [hrv, ← hv] at hc ⊢
      exact hc
  | some v =>
      rw [hrv] at hv
      simp only [Option.isSome_some] at hv
      simp only [hrv, ← hv, if_true] at hc ⊢
      simp [Row.vals_length, row_ids_length, hc]

lemma PushBlock_offset_eq {R : Type} {c : RowBlockContainer R}
    {b : RowBlock R} (h1 : c.label.length + 1 = c.offset.length) :
    overwriteFrom (c.offset ++ List.replicate b.size 0) (c.label.length + 1)
        ((List.range b.size).map
          (fun i => c.offset.getD c.label.length 0 + b.offset.getD (i + 1) 0)) =
      c.offset ++ (List.range b.size).map
          (fun i => c.offset.getD c.label.length 0 + b.offset.getD (i + 1) 0) :=
  overwriteFrom_append _ _ _ _ _ h1 (by simp)

lemma PushBlock_index_eq {R : Type} {c : RowBlockContainer R}
    {b : RowBlock R} (h3 : c.offset.getLast? = some c.index.length) :
    overwriteFrom (c.index ++ List.replicate b.ndata 0)
        (c.offset.getLastD 0) (RowBlock.ids b) = c.index ++ RowBlock.ids b := by
  apply overwriteFrom_append
  · rw [List.getLastD_eq_getLast?, h3]
    rfl
  · exact block_ids_length b

lemma ndata_zero_of_size_zero {R : Type} {b : RowBlock R}
    (hwf : BlockWF b) (hsz : b.size = 0) : b.ndata = 0 := by
  obtain ⟨hlen, hhead, _, _, _, _⟩ := hwf
  rw [hsz] at hlen
  cases ho : b.offset with
  | nil => rw [ho] at hlen; cases hlen
  | cons a t =>
      rw [ho] at hhead hlen
      have ht : t = [] := by
        rw [List.length_cons] at hlen
        exact List.eq_nil_of_length_eq_zero (by omega)
      have ha : a = 0 := by simpa using hhead
      unfold RowBlock.ndata
      rw [hsz, ho, ht, ha]
      rfl

lemma PushBlock_InvL {R : Type} [Inhabited R] {IMAX : Nat}
    {c c' : RowBlockContainer R} {b : RowBlock R}
    (hwf : BlockWF b) (hc : InvL c)
    (h : RowBlockContainer.PushBlock IMAX c b = some c') :
    InvL c' := by
  obtain ⟨h1, h2, h3⟩ := hc
  obtain ⟨hall, hrec⟩ := PushBlock_eq_some h
  rw [hrec]
  rw [PushBlock_offset_eq h1, PushBlock_index_eq h3]
  refine ⟨?_, head?_append_of_head? h2, ?_⟩
  · rw [overwriteFrom_length]
    simp only [List.length_append, List.length_replicate, List.length_map,
      List.length_range]
    omega
  · cases hsz : b.size with
    | zero =>
        have hnd := ndata_zero_of_size_zero hwf hsz
        simp only [hsz, List.range_zero, List.map_nil, List.append_nil]
        rw [h3]
        simp [block_ids_length, hnd]
    | succ n =>
        have hshift : c.offset.getD c.label.length 0 = c.index.length := by
          have := getLast?_getD h3
          rw [show c.offset.length - 1 = c.label.length from by omega] at this
          exact this
        rw [range_succ_append, List.map_append]
        simp only [List.map_cons, List.map_nil]
        rw [← List.append_assoc, List.getLast?_concat]
        have hnd : b.offset.getD (n + 1) 0 = b.ndata := by
          unfold RowBlock.ndata
          rw [hsz]
        rw [hnd, hshift]
        simp [block_ids_length]

lemma PushBlock_chain {R : Type} [Inhabited R] {IMAX : Nat}
    {c c' : RowBlockContainer R} {b : RowBlock R}
    (hwf : BlockWF b) (hc : InvL c)
    (hch : List.Chain' (fun x y => x ≤ y) c.offset)
    (h : RowBlockContainer.PushBlock IMAX c b = some c') :
    List.Chain' (fun x y => x ≤ y) c'.offset := by
  obtain ⟨h1, h2, h3⟩ := hc
  obtain ⟨hofflen, hoffhead, hoffch, _, _, _⟩ := hwf
  obtain ⟨hall, hrec⟩ := PushBlock_eq_some h
  rw [hrec]
  rw [PushBlock_offset_eq h1]
  show List.Chain' (fun x y => x ≤ y) (c.offset ++ _)
  apply List.Chain'.append hch
  · rw [List.chain'_map]
    cases hsz : b.size with
    | zero => simp
    | succ n =>
        refine (List.chain'_range_succ _ n).mpr ?_
        intro m hm
        simp only [Nat.succ_eq_add_one]
        have hle : b.offset.getD (m + 1) 0 ≤ b.offset.getD (m + 1 + 1) 0 := by
          apply chain'_getD hoffch
          omega
        omega
  · intro x hx y hy
    rw [h3] at hx
    have hx2 : c.index.length = x := by simpa using hx
    subst hx2
    cases hsz : b.size with
    | zero =>
        rw [hsz] at hy
        simp at hy
    | succ n =>
        rw [hsz, range_succ_cons] at hy
        simp only [List.map_cons, List.head?_cons, Option.mem_def,
          Option.some.injEq] at hy
        have hshift : c.offset.getD c.label.length 0 = c.index.length := by
          have := getLast?_getD h3
          rw [show c.offset.length - 1 = c.label.length from by omega] at this
          exact this
        rw [← hy, hshift]
        omega

lemma PushBlock_InvV {R : Type} [Inhabited R] {IMAX : Nat} {wv : Bool}
    {c c' : RowBlockContainer R} {b : RowBlock R}
    (hv : b.value.isSome = wv) (hc : InvV wv c)
    (h : RowBlockContainer.PushBlock IMAX c b = some c') :
    InvV wv c' := by
  obtain ⟨hall, hrec⟩ := PushBlock_eq_some h
  rw [hrec]
  unfold InvV at hc ⊢
  cases hbv : b.value with
  | none =>
      rw [hbv] at hv
      simp only [Option.isSome_none] at hv
      simp only [hbv, ← hv, if_false] at hc ⊢
      simpa using hc
  | some v =>
      rw [hbv] at hv
      simp only [Option.isSome_some] at hv
      simp only [hbv, ← hv, if_true] at hc ⊢
      rw [overwriteFrom_length, overwriteFrom_length]
      simp [hc]


lemma runOps_cons {IMAX : Nat} {c : RowBlockContainer ℚ} {op : ContOp ℚ}
    {ops : List (ContOp ℚ)} :
    runOps IMAX c (op :: ops) =
      (applyOp IMAX c op).bind (fun c1 => runOps IMAX c1 ops) := by
  cases hap : applyOp IMAX c op <;>
    simp [runOps, List.foldlM_cons, hap]

lemma runOps_InvL_chain {IMAX : Nat} (ops : List (ContOp ℚ)) :
    ∀ c c' : RowBlockContainer ℚ,
      (∀ op ∈ ops, OpWF op) →
      InvL c → List.Chain' (fun x y => x ≤ y) c.offset →
      runOps IMAX c ops = some c' →
      InvL c' ∧ List.Chain' (fun x y => x ≤ y) c'.offset := by
  induction ops with
  | nil =>
      intro c c' _ h1 h2 hrun
      obtain rfl : c = c' := Option.some.inj hrun
      exact ⟨h1, h2⟩
  | cons op ops ih =>
      intro c c' hwf h1 h2 hrun
      rw [runOps_cons] at hrun
      cases hap : applyOp IMAX c op with
      | none => rw [hap] at hrun; cases hrun
      | some c1 =>
          rw [hap] at hrun
          have hstep : InvL c1 ∧ List.Chain' (fun x y => x ≤ y) c1.offset := by
            cases op with
            | clear =>
                obtain rfl : RowBlockContainer.ClearState = c1 :=
                  Option.some.inj hap
                exact ⟨clear_InvL, clear_chain⟩
            | pushRow r =>
                exact ⟨Push_InvL h1 hap, Push_chain h1 h2 hap⟩
            | pushBlock b =>
                have hb : BlockWF b :=
                  hwf (ContOp.pushBlock b) (List.mem_cons_self _ _)
                exact ⟨PushBlock_InvL hb h1 hap, PushBlock_chain hb h1 h2 hap⟩
          exact ih c1 c' (fun op2 hop => hwf op2 (by simp [hop]))
            hstep.1 hstep.2 hrun

lemma runOps_InvV {IMAX : Nat} {wv : Bool} (ops : List (ContOp ℚ)) :
    ∀ c c' : RowBlockContainer ℚ,
      (∀ op ∈ ops, opVal op = none ∨ opVal op = some wv) →
      InvV wv c →
      runOps IMAX c ops = some c' →
      InvV wv c' := by
  induction ops with
  | nil =>
      intro c c' _ hv hrun
      obtain rfl : c = c' := Option.some.inj hrun
      exact hv
  | cons op ops ih =>
      intro c c' hom hv hrun
      rw [runOps_cons] at hrun
      cases hap : applyOp IMAX c op with
      | none => rw [hap] at hrun; cases hrun
      | some c1 =>
          rw [hap] at hrun
          have hstep : InvV wv c1 := by
            cases op with
            | clear =>
                obtain rfl : RowBlockContainer.ClearState = c1 :=
                  Option.some.inj hap
                cases wv <;> rfl
            | pushRow r =>
                have hval : r.value.isSome = wv := by
                  rcases hom _ (List.mem_cons_self _ _) with hno | hsome
                  · cases hno
                  · simpa [opVal] using hsome
                exact Push_InvV hval hv hap
            | pushBlock b =>
                have hval : b.value.isSome = wv := by
                  rcases hom _ (List.mem_cons_self _ _) with hno | hsome
                  · cases hno
                  · simpa [opVal] using hsome
                exact PushBlock_InvV hval hv hap
          exact ih c1 c' (fun op2 hop => hom op2 (by simp [hop])) hstep hrun

lemma applyPush_max {IMAX : Nat} {c c' : RowBlockContainer ℚ} {op : ContOp ℚ}
    (hop : op ≠ ContOp.clear) (h : applyOp IMAX c op = some c') :
    c'.max_index = (opIds op).foldl max c.max_index := by
  cases op with
  | clear => exact absurd rfl hop
  | pushRow r =>
      rw [Push_eq_some h]
      rfl
  | pushBlock b =>
      rw [(PushBlock_eq_some h).2]
      rfl

lemma le_foldl_max (l : List Nat) : ∀ b : Nat, b ≤ l.foldl max b := by
  induction l with
  | nil => intro b; exact Nat.le_refl b
  | cons x l ih =>
      intro b
      exact le_trans (Nat.le_max_left b x) (ih (max b x))

lemma runOps_max {IMAX : Nat} (ops : List (ContOp ℚ)) :
    ∀ c c' : RowBlockContainer ℚ, ContOp.clear ∉ ops →
      runOps IMAX c ops = some c' →
      c'.max_index = (ops.flatMap opIds).foldl max c.max_index := by
  induction ops with
  | nil =>
      intro c c' _ hrun
      obtain rfl : c = c' := Option.some.inj hrun
      rfl
  | cons op ops ih =>
      intro c c' hnc hrun
      rw [runOps_cons] at hrun
      cases hap : applyOp IMAX c op with
      | none => rw [hap] at hrun; cases hrun
      | some c1 =>
          rw [hap] at hrun
          have h1 : c1.max_index = (opIds op).foldl max c.max_index :=
            applyPush_max (fun he => hnc (by simp [he])) hap
          have h2 := ih c1 c' (fun hm => hnc (by simp [hm])) hrun
          rw [h2, h1, List.flatMap_cons, List.foldl_append]

/-- Claim C4: for every container state reachable from the empty (cleared)
state by a sequence of successful public operations (Clear, single-row Push,
bulk Push of blocks satisfying the documented RowBlock layout invariant), the
offset array is non-decreasing, its first element is 0, and its last element
equals the length of the index array. -/
theorem C4_offset_invariant (IMAX : Nat) (ops : List (ContOp ℚ))
    (c : RowBlockContainer ℚ) (hwf : ∀ op ∈ ops, OpWF op)
    (hrun : runOps IMAX RowBlockContainer.ClearState ops = some c) :
    List.Chain' (fun x y => x ≤ y) c.offset ∧
    c.offset.head? = some 0 ∧
    c.offset.getLast? = some c.index.length := by
  obtain ⟨⟨h1, h2, h3⟩, hch⟩ :=
    runOps_InvL_chain ops RowBlockContainer.ClearState c hwf clear_InvL
      clear_chain hrun
  exact ⟨hch, h2, h3⟩

/-- Witness for C4 at a concrete run: one pushed row. -/
theorem C4_offset_invariant_witness :
    List.Chain' (fun x y => x ≤ y)
        (⟨[0, 1], [1], [2], [], 2⟩ : RowBlockContainer ℚ).offset ∧
    (⟨[0, 1], [1], [2], [], 2⟩ : RowBlockContainer ℚ).offset.head? = some 0 ∧
    (⟨[0, 1], [1], [2], [], 2⟩ : RowBlockContainer ℚ).offset.getLast? =
      some (⟨[0, 1], [1], [2], [], 2⟩ : RowBlockContainer ℚ).index.length :=
  C4_offset_invariant 10 [ContOp.pushRow ⟨1, 1, [2], none⟩] _
    (by
      intro op hop
      rcases List.mem_singleton.mp hop with rfl
      trivial)
    (by decide)

/-- Counterexample to claim C5 as frozen: when one pushed row carries
explicit values and a later one omits them (the code rejects nothing), the
resulting state has value.length = 1 and index.length = 2, violating
value.length = index.length or value.length = 0. -/
theorem C5_invariants_counterexample :
    runOps 10 RowBlockContainer.ClearState
        [ContOp.pushRow ⟨1, 1, [0], some [2]⟩,
         ContOp.pushRow ⟨1, 1, [0], none⟩] =
      some (⟨[0, 1, 2], [1, 1], [0, 0], [2], 0⟩ : RowBlockContainer ℚ) ∧
    ¬ ((⟨[0, 1, 2], [1, 1], [0, 0], [2], 0⟩ :
          RowBlockContainer ℚ).value.length =
        (⟨[0, 1, 2], [1, 1], [0, 0], [2], 0⟩ :
          RowBlockContainer ℚ).index.length ∨
       (⟨[0, 1, 2], [1, 1], [0, 0], [2], 0⟩ :
          RowBlockContainer ℚ).value.length = 0) :=
  ⟨by decide, by decide⟩

/-- Claim C5 amended: after every mutation sequence in which the pushes agree
on value presence (all ops carry explicit values, or none does) and bulk
pushed blocks satisfy the documented RowBlock layout invariant, the container
satisfies label.length + 1 = offset.length, offset.last = index.length, and
value.length = index.length or value.length = 0. -/
theorem C5_invariants_amended (IMAX : Nat) (wv : Bool)
    (ops : List (ContOp ℚ)) (c : RowBlockContainer ℚ)
    (hwf : ∀ op ∈ ops, OpWF op)
    (hom : ∀ op ∈ ops, opVal op = none ∨ opVal op = some wv)
    (hrun : runOps IMAX RowBlockContainer.ClearState ops = some c) :
    c.label.length + 1 = c.offset.length ∧
    c.offset.getLast? = some c.index.length ∧
    (c.value.length = c.index.length ∨ c.value.length = 0) := by
  obtain ⟨⟨h1, h2, h3⟩, hch⟩ :=
    runOps_InvL_chain ops RowBlockContainer.ClearState c hwf clear_InvL
      clear_chain hrun
  have hv := runOps_InvV ops RowBlockContainer.ClearState c hom
    (show InvV wv RowBlockContainer.ClearState from by cases wv <;> rfl) hrun
  refine ⟨h1, h3, ?_⟩
  unfold InvV at hv
  cases wv with
  | true => exact Or.inl (by simpa using hv)
  | false => exact Or.inr (by simpa using hv)

/-- Witness for the amended C5 at a concrete homogeneous run. -/
theorem C5_invariants_amended_witness :
    (⟨[0, 1], [1], [0], [2], 0⟩ : RowBlockContainer ℚ).label.length + 1 =
      (⟨[0, 1], [1], [0], [2], 0⟩ : RowBlockContainer ℚ).offset.length ∧
    (⟨[0, 1], [1], [0], [2], 0⟩ : RowBlockContainer ℚ).offset.getLast? =
      some (⟨[0, 1], [1], [0], [2], 0⟩ : RowBlockContainer ℚ).index.length ∧
    ((⟨[0, 1], [1], [0], [2], 0⟩ : RowBlockContainer ℚ).value.length =
        (⟨[0, 1], [1], [0], [2], 0⟩ : RowBlockContainer ℚ).index.length ∨
      (⟨[0, 1], [1], [0], [2], 0⟩ : RowBlockContainer ℚ).value.length = 0) :=
  C5_invariants_amended 10 true [ContOp.pushRow ⟨1, 1, [0], some [2]⟩] _
    (by
      intro op hop
      rcases List.mem_singleton.mp hop with rfl
      trivial)
    (by
      intro op hop
      rcases List.mem_singleton.mp hop with rfl
      exact Or.inr rfl)
    (by decide)

/-- Claim C9: for every container reachable by successful pushes (no Clear)
from the cleared state, max_index is the maximum of all accepted feature ids
(0 when none), NumCol returns max_index + 1, and max_index never decreases
across a successful push. -/
theorem C9_max_index_numcol (IMAX : Nat) (ops : List (ContOp ℚ))
    (c : RowBlockContainer ℚ) (hnc : ContOp.clear ∉ ops)
    (hrun : runOps IMAX RowBlockContainer.ClearState ops = some c) :
    c.max_index = (ops.flatMap opIds).foldl max 0 ∧
    RowBlockContainer.NumCol c = c.max_index + 1 ∧
    (∀ (c1 c2 : RowBlockContainer ℚ) (op : ContOp ℚ), op ≠ ContOp.clear →
      applyOp IMAX c1 op = some c2 → c1.max_index ≤ c2.max_index) := by
  refine ⟨?_, rfl, ?_⟩
  · have hm := runOps_max ops RowBlockContainer.ClearState c hnc hrun
    simpa using hm
  · intro c1 c2 op hop hap
    rw [applyPush_max hop hap]
    exact le_foldl_max _ _

/-- Witness for C9 at a concrete run: one pushed row with ids 3 and 1. -/
theorem C9_max_index_numcol_witness :
    (⟨[0, 2], [1], [3, 1], [], 3⟩ : RowBlockContainer ℚ).max_index =
      (([ContOp.pushRow (⟨1, 2, [3, 1], none⟩ : Row ℚ)]).flatMap
        opIds).foldl max 0 ∧
    RowBlockContainer.NumCol
        (⟨[0, 2], [1], [3, 1], [], 3⟩ : RowBlockContainer ℚ) =
      (⟨[0, 2], [1], [3, 1], [], 3⟩ :
        RowBlockContainer ℚ).max_index + 1 ∧
    (∀ (c1 c2 : RowBlockContainer ℚ) (op : ContOp ℚ), op ≠ ContOp.clear →
      applyOp 10 c1 op = some c2 → c1.max_index ≤ c2.max_index) :=
  C9_max_index_numcol 10 [ContOp.pushRow ⟨1, 2, [3, 1], none⟩] _
    (by
      intro hmem
      rcases List.mem_singleton.mp hmem with h
      cases h)
    (by decide)


/-- Claim C3: pushing a row with a feature id equal to (or, for a wider
source type, above) the IndexType maximum fires the fatal IndexOverflow
CHECK: the model returns none and no partially appended container state
exists (the process halts, so the pre-push state is the last observable
one); a push whose ids are all strictly below the maximum succeeds. -/
theorem C3_overflow_rejection (IMAX : Nat) (c : RowBlockContainer ℚ)
    (r : Row ℚ) :
    ((∃ i, i < r.length ∧ IMAX ≤ r.index.getD i 0) →
      RowBlockContainer.Push IMAX c r = none) ∧
    ((∀ i, i < r.length → r.index.getD i 0 < IMAX) →
      ∃ c', RowBlockContainer.Push IMAX c r = some c') := by
  constructor
  · rintro ⟨i, hi, hge⟩
    unfold RowBlockContainer.Push
    rw [if_neg]
    intro hall
    rw [List.all_eq_true] at hall
    have hmem : r.index.getD i 0 ∈ Row.ids r := by
      unfold Row.ids
      exact List.mem_map.mpr ⟨i, List.mem_range.mpr hi, rfl⟩
    have hlt := hall _ hmem
    simp only [decide_eq_true_eq] at hlt
    omega
  · intro hall
    have hcond : (Row.ids r).all (fun x => x < IMAX) = true := by
      rw [List.all_eq_true]
      intro x hx
      unfold Row.ids at hx
      obtain ⟨i, hir, rfl⟩ := List.mem_map.mp hx
      simp only [decide_eq_true_eq]
      exact hall i (List.mem_range.mp hir)
    exact ⟨_, by
      unfold RowBlockContainer.Push
      rw [if_pos hcond]⟩

/-- Witness for C3: id 10 at the bound 10 is rejected; id 3 is accepted. -/
theorem C3_overflow_rejection_witness :
    RowBlockContainer.Push 10 RowBlockContainer.ClearState
        (⟨1, 1, [10], none⟩ : Row ℚ) = none ∧
    ∃ c', RowBlockContainer.Push 10 RowBlockContainer.ClearState
        (⟨1, 1, [3], none⟩ : Row ℚ) = some c' :=
  ⟨(C3_overflow_rejection 10 RowBlockContainer.ClearState _).1
      ⟨0, by decide, by decide⟩,
   (C3_overflow_rejection 10 RowBlockContainer.ClearState _).2
      (by
        intro i hi
        have hi1 : i < 1 := hi
        have h0 : i = 0 := by omega
        subst h0
        decide)⟩

/-- Claim C6 evidence (the claim itself is a code bug): the loop of SDot
computes the weighted sum 1 * 0 + 2 * 5 + 4 * 2 = 18 into its local
accumulator at this input and fires the bound CHECK when a feature id
reaches the weight length; the C++ function then falls off the end of a
non-void function without a return statement, so the caller receives an
undefined value rather than this sum. -/
theorem C6_sdot_body :
    Row.sdotSum ⟨1, 2, [1, 3], some [5, 2]⟩ [1, 2, 3, 4] 4 = some 18 ∧
    Row.sdotSum ⟨1, 2, [1, 5], some [5, 2]⟩ [1, 2, 3, 4] 4 = none := by
  constructor
  · simp [Row.sdotSum, List.range_succ]
    norm_num
  · simp [Row.sdotSum, List.range_succ]

/-- Claim C7: the value accessor is total on 0 ≤ i < length (it is a plain
function with no error path): it returns 1.0 when the value array is absent
and value[i] when present. -/
theorem C7_get_value_total (r : Row ℚ) (i : Nat) (h : i < r.length) :
    (r.value = none → r.get_value i = 1) ∧
    (∀ v, r.value = some v → r.get_value i = v.getD i 0) := by
  constructor
  · intro hv
    simp [Row.get_value, hv]
  · intro v hv
    simp [Row.get_value, hv]

/-- Witness for C7 at i = 0 on a one-feature row, without and with values. -/
theorem C7_get_value_total_witness :
    ((⟨1, 1, [0], none⟩ : Row ℚ).get_value 0 = 1) ∧
    ((⟨1, 1, [0], some [5]⟩ : Row ℚ).get_value 0 =
      ([5] : List ℚ).getD 0 0) :=
  ⟨(C7_get_value_total ⟨1, 1, [0], none⟩ 0 (by decide)).1 rfl,
   (C7_get_value_total ⟨1, 1, [0], some [5]⟩ 0 (by decide)).2 [5] rfl⟩

lemma getD_drop {α : Type} (l : List α) (d : α) (n j : Nat) :
    (l.drop n).getD j d = l.getD (n + j) d := by
  rw [List.getD_eq_getElem?_getD, List.getD_eq_getElem?_getD,
    List.getElem?_drop]

/-- Claim C8: for r < size the row accessor returns the view with label
label[r], length offset[r+1] - offset[r], index slice starting at offset[r]
(element j of the row is index[offset[r] + j]) and value slice starting at
offset[r] with NULL propagated; for r ≥ size the CHECK fires. The accessor
is modelled as a pure function, matching its side-effect-free source. -/
theorem C8_row_accessor (b : RowBlock ℚ) (r : Nat) :
    (r < b.size → ∃ row, b.row r = some row ∧
      row.label = b.label.getD r default ∧
      row.length = b.offset.getD (r + 1) 0 - b.offset.getD r 0 ∧
      (∀ j, row.index.getD j 0 = b.index.getD (b.offset.getD r 0 + j) 0) ∧
      (b.value = none → row.value = none) ∧
      (∀ v, b.value = some v →
        row.value = some (v.drop (b.offset.getD r 0)))) ∧
    (b.size ≤ r → b.row r = none) := by
  constructor
  · intro hr
    refine ⟨{ label := b.label.getD r default
            , length := b.offset.getD (r + 1) 0 - b.offset.getD r 0
            , index := b.index.drop (b.offset.getD r 0)
            , value := b.value.map (fun v => v.drop (b.offset.getD r 0)) },
      ?_, rfl, rfl, ?_, ?_, ?_⟩
    · unfold RowBlock.row
      rw [if_pos hr]
    · intro j
      exact getD_drop _ _ _ _
    · intro hv
      simp [hv]
    · intro v hv
      simp [hv]
  · intro hr
    unfold RowBlock.row
    rw [if_neg (by omega)]

/-- Witness for C8 on a concrete two-row block: row 0 exists, row 2 is
rejected. -/
theorem C8_row_accessor_witness :
    ((⟨2, [0, 2, 3], [1, -1], [1, 3, 2], some [5, 2, 1]⟩ :
        RowBlock ℚ).row 0).isSome = true ∧
    (⟨2, [0, 2, 3], [1, -1], [1, 3, 2], some [5, 2, 1]⟩ :
        RowBlock ℚ).row 2 = none := by
  have h1 := (C8_row_accessor
    (⟨2, [0, 2, 3], [1, -1], [1, 3, 2], some [5, 2, 1]⟩ : RowBlock ℚ) 0).1
    (by decide)
  have h2 := (C8_row_accessor
    (⟨2, [0, 2, 3], [1, -1], [1, 3, 2], some [5, 2, 1]⟩ : RowBlock ℚ) 2).2
    (by decide)
  obtain ⟨row, hrow, -⟩ := h1
  refine ⟨?_, h2⟩
  rw [hrow]
  rfl

/-- Claim C10: for the in-memory drain iterator, after construction or after
any BeforeFirst, Next returns true exactly once and then false on every
later call until the next BeforeFirst, whatever block is stored (including
an empty one). -/
theorem C10_next_exactly_once (b : RowBlock ℚ) (it : BasicRowIter ℚ)
    (k : Nat) :
    nextResults (mkBasicRowIter b) (k + 1) = true :: List.replicate k false ∧
    nextResults it.BeforeFirst (k + 1) = true :: List.replicate k false := by
  have haux : ∀ (k2 : Nat) (s : BasicRowIter ℚ), s.at_head = false →
      nextResults s k2 = List.replicate k2 false := by
    intro k2
    induction k2 with
    | zero => intro s _; rfl
    | succ k3 ih =>
        intro s hs
        show (s.Next).1 :: nextResults (s.Next).2 k3 = _
        rw [show s.Next = (false, s) from by
          unfold BasicRowIter.Next
          rw [hs]
          simp]
        rw [ih s hs]
        rfl
  have hstep : ∀ s : BasicRowIter ℚ, s.at_head = true →
      nextResults s (k + 1) = true :: List.replicate k false := by
    intro s hs
    show (s.Next).1 :: nextResults (s.Next).2 k = _
    rw [show s.Next = (true, { s with at_head := false }) from by
      unfold BasicRowIter.Next
      rw [hs]
      simp]
    rw [haux k { s with at_head := false } rfl]
  exact ⟨hstep _ rfl, hstep _ rfl⟩

/-- Claim C1 is violated by the code: Save writes the four arrays in the
order offset, label, index, value, but Load reads the members in the order
offset, label, value, index (row_block.h lines 144 to 147). At the
IndexType = unsigned instantiation both index and value elements are 4 bytes
wide, so both swapped reads succeed and the round trip lands the old index
bytes in value and the old value bytes in index: the exported RowBlock of
the loaded container differs from the original. -/
theorem C1_roundtrip_swaps :
    RowBlockContainer.Load ⟨[], [], [], [], 0⟩
        (RowBlockContainer.Save ⟨[0, 1], [7], [5], [9], 5⟩) =
      some ⟨[0, 1], [7], [9], [5], 0⟩ ∧
    RowBlockContainer.GetBlock
        (⟨[0, 1], [7], [9], [5], 0⟩ : RowBlockContainer Nat) ≠
      RowBlockContainer.GetBlock
        (⟨[0, 1], [7], [5], [9], 5⟩ : RowBlockContainer Nat) := by
  constructor
  · decide
  · decide

end Dmlc
